import Mathlib

/-!
Verification development for the HighPerfComputing repository.

The repository contains two CUDA tutorial notebooks.  The core subsystems are

* a brute-force nearest-neighbor engine (notebook pygpu-extra-end2end):
  a warp shuffle reduction `_warp_min_reduce_idx_unrolled`, a Phase 1 kernel
  `_block_get_nearest_brute` writing per-(observation, block-column) winners
  into 32-column BlockPartial arrays, a Phase 2 kernel
  `_global_get_nearest_brute` merging the 32 columns, a single-threaded CPU
  oracle `numba_cpu_solve`, and the host driver `numba_cuda_solve` with the
  hard-coded launch configuration Phase 1 bpg equal to the pair 32 128 and
  tpb equal to the pair 32 16, Phase 2 bpg equal to the pair 1 2560 and the
  same tpb;

* a matrix-multiply lab (notebook Lab6): a naive one-thread-per-element
  kernel `matmul` and a tiled shared-memory kernel `fast_matmul` with tile
  width TPB equal to 16.

Modelling conventions.  Machine floating point is idealized: scalar values are
rationals, and the haversine routine is a parameter of the embedding (the
kernels only compare and copy distance values, so every control-flow fact
below holds for any scalar routine; a separate real-valued `haversine`
definition records the exact formula and its upper bound, which justifies the
boundedness hypotheses used by the theorems).  Device arrays are total
functions; uninitialized device memory is an explicit `init` parameter.
Warps execute in lockstep, so a warp shuffle is a pure function from the
32 lane states to the new lane states.  With the hard-coded launch
configuration every BlockPartial cell and every output cell has exactly one
writer (proved below), so kernels are embedded as pure functions from inputs
to array contents.
-/

/-! ### The warp shuffle reduction primitive

Source: `_warp_min_reduce_idx_unrolled`.  Each of the 32 lanes of a warp
holds a pair of a value `val` and an index `idx`.  Five exchange steps with
offsets 16, 8, 4, 2, 1 are performed; in each step lane L receives the pair
of lane L plus offset via `shfl_down_sync` (a lane whose source is outside
the warp receives its own pair), and keeps its own pair unless its value is
strictly greater than the received value. -/

/-- Semantics of `cuda.shfl_down_sync` with full mask on a 32-lane warp:
lane `L` reads the variable of lane `L + d`; if that lane does not exist the
lane reads its own value. -/
def shfl_down (s : ℕ → ℚ × ℕ) (d L : ℕ) : ℚ × ℕ :=
  if L + d < 32 then s (L + d) else s L

/-- One exchange-and-compare step of `_warp_min_reduce_idx_unrolled`:
`shfl_val, shfl_idx = shfl_down(val, idx, d)`, then the lane adopts the
received pair exactly when `val > shfl_val`. -/
def warp_step (s : ℕ → ℚ × ℕ) (d : ℕ) : ℕ → ℚ × ℕ := fun L =>
  if (s L).1 > (shfl_down s d L).1 then shfl_down s d L else s L

/-- The unrolled five-step warp reduction of `_warp_min_reduce_idx_unrolled`:
offsets 16, 8, 4, 2, 1 in program order. -/
def warp_min_reduce_idx_unrolled (s : ℕ → ℚ × ℕ) : ℕ → ℚ × ℕ :=
  warp_step (warp_step (warp_step (warp_step (warp_step s 16) 8) 4) 2) 1

/-- Invariant used to verify the reduction: after the steps with offsets
32/d, ..., 16 have been applied, lane `L` holds the running minimum over the
input lanes `L`, `L + d`, `L + 2d`, ... (those below 32), and its pair is the
input pair of one of those lanes. -/
def warpSpec (d : ℕ) (s s0 : ℕ → ℚ × ℕ) : Prop :=
  ∀ L, L < 32 →
    (∀ k, L + d * k < 32 → (s L).1 ≤ (s0 (L + d * k)).1) ∧
    (∃ k, L + d * k < 32 ∧ s L = s0 (L + d * k))

/-- Concrete warp input refuting the lowest-lane tie-break: the minimal
value 0 is held exactly by lanes 4 and 8, every lane carries its own lane
number as index. -/
def warpCexInput : ℕ → ℚ × ℕ :=
  fun L => (if L = 4 ∨ L = 8 then (0 : ℚ) else 1, L)

/-! ### Grid-stride loops

`range(start, bound, stride)` of the CUDA kernels. -/

/-- Number of iterations of `range(start, bound, stride)`. -/
def strideCount (start stride bound : ℕ) : ℕ :=
  (bound - start + stride - 1) / stride

/-- The index list of the Python loop `for j in range(start, bound, stride)`. -/
def strideList (start stride bound : ℕ) : List ℕ :=
  List.range' start (strideCount start stride bound) stride

/-! ### The nearest-neighbor engine

Scalar distances are a parameter `hav` with `hav i j` the single-precision
haversine distance between observation `i` and reference `j`; `SENT1` is the
Phase 1 seed sentinel `1e11`, `SENT2` the Phase 2 seed `1e30`. -/

/-- Phase 1 and CPU seed sentinel, `1e11`. -/
def SENT1 : ℚ := 100000000000

/-- Phase 2 seed sentinel, `1e30`. -/
def SENT2 : ℚ := 1000000000000000000000000000000

/-- The running-minimum loop body shared by `numba_cpu_solve` and the inner
loop of `_block_get_nearest_brute`: starting from an accumulator pair, scan
the index list and adopt `(f j, j)` whenever `f j` is strictly below the
current value. -/
def minScan (f : ℕ → ℚ) (acc : ℚ × ℕ) (js : List ℕ) : ℚ × ℕ :=
  js.foldl (fun p j => if f j < p.1 then (f j, j) else p) acc

/-- Single-threaded CPU oracle `numba_cpu_solve`, per observation `i`:
seed `(1e11, 0)`, scan all references in order, keep the strict running
minimum.  Returns the pair of distance and index. -/
def numba_cpu_solve_model (nObs nRef : ℕ) (hav : ℕ → ℕ → ℚ) (i : ℕ) : ℚ × ℕ :=
  minScan (hav i) (SENT1, 0) (List.range nRef)

/-- Phase 1, per-thread local scan of `_block_get_nearest_brute`: the thread
with `threadIdx.x = tx` in block column `c` starts at `startx = c * 32 + tx`
and strides by `gridsize.x = g1x * 32` over the reference set. -/
def lanePair1 (nRef g1x : ℕ) (f : ℕ → ℚ) (c tx : ℕ) : ℚ × ℕ :=
  minScan f (SENT1, 0) (strideList (c * 32 + tx) (g1x * 32) nRef)

/-- Contents of the BlockPartial cell for observation `i` and column `c`
after Phase 1 with `gridDim.x = g1x` (blockDim is the hard-coded pair 32 16,
so each block row is one warp and `laneid = threadIdx.x`).  For `c < g1x`
and `i < nObs` exactly one warp reduces its 32 lane scans and lane 0 writes
the winner; other cells keep the uninitialized contents `initD`/`initI` of
`cuda.device_array`.  The y dimensions of the launch only choose which warp
is the writer, not the written value, so they do not appear. -/
def blockCell (nObs nRef g1x : ℕ) (hav : ℕ → ℕ → ℚ)
    (initD : ℕ → ℕ → ℚ) (initI : ℕ → ℕ → ℕ) (i c : ℕ) : ℚ × ℕ :=
  if c < g1x ∧ i < nObs then
    warp_min_reduce_idx_unrolled (fun tx => lanePair1 nRef g1x (hav i) c tx) 0
  else (initD i c, initI i c)

/-- Phase 2, per-thread loop of `_global_get_nearest_brute` under the
hard-coded launch (bpg the pair 1 2560, tpb the pair 32 16): the thread with
`threadIdx.x = tx` runs `for j in range(tx, 32, 32)`, but the loop body reads
`block_dist[i, threadIdx.x]` and `block_idx[i, threadIdx.x]`, ignoring `j`.
Seed is `(1e30, 0)`. -/
def lanePair2 (cellD : ℕ → ℚ) (cellI : ℕ → ℕ) (tx : ℕ) : ℚ × ℕ :=
  (strideList tx 32 32).foldl
    (fun p _j => if cellD tx < p.1 then (cellD tx, cellI tx) else p)
    (SENT2, 0)

/-- Final engine output for observation `i`: Phase 2 warp-reduces the 32
lane pairs and lane 0 writes `(out_dist[i], out_idx[i])`.  `g1x` is the
Phase 1 `gridDim.x` (the driver hard-codes 32); `initD`/`initI` model the
uninitialized BlockPartial memory. -/
def engineOut (nObs nRef g1x : ℕ) (hav : ℕ → ℕ → ℚ)
    (initD : ℕ → ℕ → ℚ) (initI : ℕ → ℕ → ℕ) (i : ℕ) : ℚ × ℕ :=
  warp_min_reduce_idx_unrolled
    (fun tx => lanePair2
      (fun t => (blockCell nObs nRef g1x hav initD initI i t).1)
      (fun t => (blockCell nObs nRef g1x hav initD initI i t).2) tx) 0

/-- The host driver `numba_cuda_solve` with its hard-coded launch
configuration (Phase 1 `gridDim.x = 32`, matching the 32 BlockPartial
columns).  Returns the pair of the index array and the distance array. -/
def numba_cuda_solve_model (nObs nRef : ℕ) (hav : ℕ → ℕ → ℚ)
    (initD : ℕ → ℕ → ℚ) (initI : ℕ → ℕ → ℕ) : (ℕ → ℕ) × (ℕ → ℚ) :=
  (fun i => (engineOut nObs nRef 32 hav initD initI i).2,
   fun i => (engineOut nObs nRef 32 hav initD initI i).1)

/-- Exact haversine formula computed inline by `_block_get_nearest_brute`
and by `numba_cpu_haversine`, in idealized real arithmetic. -/
noncomputable def haversine (lat1 lon1 lat2 lon2 : ℝ) : ℝ :=
  2 * Real.arcsin
    (Real.sqrt
      (Real.sin ((lat2 - lat1) / 2) ^ 2 +
        Real.cos lat1 * Real.cos lat2 * Real.sin ((lon2 - lon1) / 2) ^ 2))

/-! ### Frame model of Phase 1

The buffers visible to `_block_get_nearest_brute` and the state transformer
it induces. -/

/-- Device buffers of the nearest-neighbor engine: coordinate inputs and the
BlockPartial arrays. -/
structure NNBuffers where
  ref : ℕ → ℚ × ℚ
  obs : ℕ → ℚ × ℚ
  blockDist : ℕ → ℕ → ℚ
  blockIdx : ℕ → ℕ → ℕ

/-- The four device arrays passed to `_block_get_nearest_brute`. -/
inductive NNArray where
  | refArr
  | obsArr
  | blockDistArr
  | blockIdxArr
deriving DecidableEq

/-- Arrays appearing on the left-hand side of an assignment anywhere in the
body of `_block_get_nearest_brute`: exactly `block_dist` and `block_idx`. -/
def block_min_reduce_storeTargets : List NNArray :=
  [NNArray.blockDistArr, NNArray.blockIdxArr]

/-- Phase 1 as a transformer on the device buffers: the BlockPartial arrays
receive the per-cell winners (cells without a writer keep their previous
contents); `hvr` is the scalar haversine routine applied to an observation
point and a reference point. -/
def block_min_reduce_run (nObs nRef g1x : ℕ) (hvr : ℚ × ℚ → ℚ × ℚ → ℚ)
    (s : NNBuffers) : NNBuffers :=
  { s with
    blockDist := fun i c =>
      (blockCell nObs nRef g1x (fun i j => hvr (s.obs i) (s.ref j))
        s.blockDist s.blockIdx i c).1
    blockIdx := fun i c =>
      (blockCell nObs nRef g1x (fun i j => hvr (s.obs i) (s.ref j))
        s.blockDist s.blockIdx i c).2 }

/-! ### Host-side control flow of `numba_cuda_solve` -/

/-- The host operations `numba_cuda_solve` can issue. -/
inductive HostOp where
  | deviceArrayAlloc
  | kernelLaunch : String → HostOp
  | deviceSynchronize
deriving DecidableEq

/-- The straight-line sequence of host operations in the body of
`numba_cuda_solve`: four `cuda.device_array` allocations, the Phase 1 launch
`block_min_reduce[bpg, tpb]`, the Phase 2 launch `global_min_reduce[bpg,
tpb]`, then a single `cuda.synchronize()` before the arrays are returned. -/
def numba_cuda_solve_hostTrace : List HostOp :=
  [HostOp.deviceArrayAlloc, HostOp.deviceArrayAlloc,
   HostOp.deviceArrayAlloc, HostOp.deviceArrayAlloc,
   HostOp.kernelLaunch "block_min_reduce",
   HostOp.kernelLaunch "global_min_reduce",
   HostOp.deviceSynchronize]

/-! ### Write/read discipline under the hard-coded launch (claim C10) -/

/-- Hardware lane id of a thread within a block of dimensions 32 by 16:
linear thread index modulo the warp size. -/
def p1LaneId (tx ty : ℕ) : ℕ := (tx + ty * 32) % 32

/-- Bounds of the Phase 1 launch grid: bpg the pair 32 128, tpb the pair
32 16. -/
def p1ValidThread (bx byy tx ty : ℕ) : Prop :=
  bx < 32 ∧ byy < 128 ∧ tx < 32 ∧ ty < 16

/-- Thread `(bx, byy, tx, ty)` of Phase 1 writes BlockPartial cell `(i, c)`:
it must be lane 0 of its warp, the column is `blockIdx.x`, and `i` is one of
the iterations of its outer grid-stride loop `range(starty, nObs, 2048)`
with `starty = byy * 16 + ty` and `stridey = 128 * 16 = 2048`. -/
def p1WritesCell (nObs i c bx byy tx ty : ℕ) : Prop :=
  p1LaneId tx ty = 0 ∧ c = bx ∧ i ∈ strideList (byy * 16 + ty) 2048 nObs

/-- The BlockPartial columns whose distance entry lane `tx` of a Phase 2
warp reads, one per iteration of its loop `for j in range(tx, 32, 32)`:
the body reads column `threadIdx.x` each time. -/
def p2ColsReadByLane (tx : ℕ) : List ℕ :=
  (strideList tx 32 32).map (fun _j => tx)

/-! ### Launch-configuration dependence (claim C2) -/

/-- Phase 1 grid-stride coverage of reference index `j` is complete for
`gridDim.x = g1x`: some thread of some block column visits `j`. -/
def p1Covers (g1x j : ℕ) : Prop :=
  ∃ c tx k, c < g1x ∧ tx < 32 ∧ j = c * 32 + tx + k * (g1x * 32)

/-- Distance input of the launch-configuration counterexample: every
distance is 1. -/
def cexHav : ℕ → ℕ → ℚ := fun _i _j => 1

/-- Uninitialized BlockPartial distance contents in the counterexample. -/
def cexInitD : ℕ → ℕ → ℚ := fun _i _c => -1

/-- Uninitialized BlockPartial index contents in the counterexample. -/
def cexInitI : ℕ → ℕ → ℕ := fun _i _c => 7

/-! ### The matrix-multiply lab

Row-major matrices with rational entries; `TPB = 16` is the tile width. -/

/-- A host/device 2D array as used by the matmul kernels. -/
structure NpMatrix where
  rows : ℕ
  cols : ℕ
  entry : ℕ → ℕ → ℚ

/-- Tile width and threads-per-block dimension of the matmul lab. -/
def TPB : ℕ := 16

/-- `int(math.ceil(n / TPB))` of the launch cells. -/
def ceilDiv16 (n : ℕ) : ℕ := (n + TPB - 1) / TPB

/-- Accumulator loop of the naive `matmul` kernel:
`tmp += A[row, k] * B[k, col]` for `k in range(A.shape[1])`. -/
def matmul_tmp (A B : NpMatrix) (r c : ℕ) : ℚ :=
  (List.range A.cols).foldl (fun t k => t + A.entry r k * B.entry k c) 0

/-- The naive `matmul` kernel over its launch grid from the launch cell
(`blocks = ceil(A.rows / TPB) * ceil(B.cols / TPB)`, `TPB * TPB` threads per
block, C initialized to zeros): each in-grid, in-bounds thread writes its
dot product, all other entries stay 0. -/
def matmul_run (A B : NpMatrix) : NpMatrix where
  rows := A.rows
  cols := B.cols
  entry := fun r c =>
    if r < ceilDiv16 A.rows * TPB ∧ c < ceilDiv16 B.cols * TPB ∧
        r < A.rows ∧ c < B.cols then
      matmul_tmp A B r c
    else 0

/-- The early-return condition of `fast_matmul`:
`if x >= C.shape[0] and y >= C.shape[1]: return` (note the conjunction). -/
def fast_matmul_returns_early (Crows Ccols x y : ℕ) : Prop :=
  Crows ≤ x ∧ Ccols ≤ y

instance (Crows Ccols x y : ℕ) :
    Decidable (fast_matmul_returns_early Crows Ccols x y) :=
  inferInstanceAs (Decidable (Crows ≤ x ∧ Ccols ≤ y))

/-- A thread of `fast_matmul` reaches the barriers inside the tile loop
exactly when it did not return early and the loop
`for i in range(int(A.shape[1] / TPB))` runs at least once. -/
def fast_matmul_reaches_barrier (A B : NpMatrix) (x y : ℕ) : Prop :=
  ¬ fast_matmul_returns_early A.rows B.cols x y ∧ 0 < A.cols / TPB

instance (A B : NpMatrix) (x y : ℕ) :
    Decidable (fast_matmul_reaches_barrier A B x y) :=
  inferInstanceAs
    (Decidable (¬ fast_matmul_returns_early A.rows B.cols x y ∧ 0 < A.cols / TPB))

/-- Shared tile `sA` of `fast_matmul` at tile iteration `i` in block
`(bx, byy)`: entry `(a, b)` was stored by the thread with
`threadIdx = (a, b)` as `sA[tx, ty] = A[x, ty + i * TPB]`; if that thread
returned early the entry keeps the uninitialized shared memory `sAinit`. -/
def sAload (A B : NpMatrix) (sAinit : ℕ → ℕ → ℚ) (bx byy i a b : ℕ) : ℚ :=
  if fast_matmul_returns_early A.rows B.cols (bx * TPB + a) (byy * TPB + b)
  then sAinit a b
  else A.entry (bx * TPB + a) (b + i * TPB)

/-- Shared tile `sB` of `fast_matmul` at tile iteration `i`:
`sB[tx, ty] = B[tx + i * TPB, y]`, with the same early-return caveat. -/
def sBload (A B : NpMatrix) (sBinit : ℕ → ℕ → ℚ) (bx byy i a b : ℕ) : ℚ :=
  if fast_matmul_returns_early A.rows B.cols (bx * TPB + a) (byy * TPB + b)
  then sBinit a b
  else B.entry (a + i * TPB) (byy * TPB + b)

/-- Accumulator of the `fast_matmul` thread `(tx, ty)` of block `(bx, byy)`:
for each tile iteration `i`, `tmp += sA[tx, j] * sB[j, ty]` for
`j in range(TPB)`. -/
def fast_matmul_tmp (A B : NpMatrix) (sAinit sBinit : ℕ → ℕ → ℚ)
    (bx byy tx ty : ℕ) : ℚ :=
  (List.range (A.cols / TPB)).foldl
    (fun t i =>
      (List.range TPB).foldl
        (fun t2 j =>
          t2 + sAload A B sAinit bx byy i tx j * sBload A B sBinit bx byy i j ty)
        t)
    0

/-- The `fast_matmul` kernel over the launch grid of its launch cell
(`blocks = ceil(A.rows / TPB) * ceil(B.cols / TPB)`, C initialized to
zeros).  A thread that does not return early writes its accumulator to
`C[x, y]`.  Out-of-range writes (threads with exactly one coordinate out of
bounds, which the early return does not stop) land outside the modeled
index ranges and are not tracked; the equivalence theorem below restricts to
tile-multiple shapes, where no such thread exists. -/
def fast_matmul_run (A B : NpMatrix) (sAinit sBinit : ℕ → ℕ → ℚ) : NpMatrix where
  rows := A.rows
  cols := B.cols
  entry := fun r c =>
    if r < ceilDiv16 A.rows * TPB ∧ c < ceilDiv16 B.cols * TPB ∧
        ¬ fast_matmul_returns_early A.rows B.cols r c then
      fast_matmul_tmp A B sAinit sBinit (r / TPB) (c / TPB) (r % TPB) (c % TPB)
    else 0

/-- The host-to-engine matmul entry point as the launch cell implements it:
configure the grid and launch the kernel unconditionally.  The spec demands
a configuration-error channel, modeled by the `Except`; the source performs
no dimension check, so the error branch is never taken. -/
def multiply (A B : NpMatrix) : Except String NpMatrix :=
  Except.ok (matmul_run A B)

/-- Whether a `multiply` invocation reported a configuration error. -/
def isConfigError : Except String NpMatrix → Bool
  | Except.error _ => true
  | Except.ok _ => false

/-- 1 by 2 matrix of ones, for the dimension-mismatch counterexample. -/
def matC8A : NpMatrix := ⟨1, 2, fun _ _ => 1⟩

/-- 3 by 1 matrix of ones: `matC8A.cols ≠ matC8B.rows`. -/
def matC8B : NpMatrix := ⟨3, 1, fun _ _ => 1⟩

/-- 17 by 16 matrix of ones, for the barrier-divergence failing input. -/
def matC5A : NpMatrix := ⟨17, 16, fun _ _ => 1⟩

/-- 16 by 17 matrix of ones; C is then 17 by 17 on a 2 by 2 block grid. -/
def matC5B : NpMatrix := ⟨16, 17, fun _ _ => 1⟩

/-- 16 by 16 all-ones matrix, used to instantiate the tiled-matmul
equivalence theorem at a concrete input. -/
def matC6 : NpMatrix := ⟨16, 16, fun _ _ => 1⟩

/-! ## Lemmas about the warp shuffle reduction -/

theorem warp_step_fst_le (s : ℕ → ℚ × ℕ) (d L : ℕ) :
    (warp_step s d L).1 ≤ (s L).1 := by
  unfold warp_step
  split
  · next h => exact le_of_lt h
  · exact le_refl _

theorem warp_step_fst_le_right (s : ℕ → ℚ × ℕ) (d L : ℕ) (h : L + d < 32) :
    (warp_step s d L).1 ≤ (s (L + d)).1 := by
  unfold warp_step shfl_down
  rw [if_pos h]
  split
  · exact le_refl _
  · next h2 => exact not_lt.1 h2

theorem warp_step_eq_or (s : ℕ → ℚ × ℕ) (d L : ℕ) :
    warp_step s d L = s L ∨ (L + d < 32 ∧ warp_step s d L = s (L + d)) := by
  unfold warp_step shfl_down
  by_cases h : L + d < 32
  · rw [if_pos h]
    split
    · exact Or.inr ⟨h, rfl⟩
    · exact Or.inl rfl
  · rw [if_neg h]
    split
    · exact Or.inl rfl
    · exact Or.inl rfl

theorem warpSpec_refl (s0 : ℕ → ℚ × ℕ) : warpSpec 32 s0 s0 := by
  intro L hL
  constructor
  · intro k hk
    have hk0 : k = 0 := by omega
    subst hk0
    simp
  · exact ⟨0, by simpa using hL, by simp⟩

theorem warpSpec_step (d : ℕ) (hd : 0 < d) (s s0 : ℕ → ℚ × ℕ)
    (h : warpSpec (2 * d) s s0) : warpSpec d (warp_step s d) s0 := by
  intro L hL
  by_cases hLd : L + d < 32
  · constructor
    · intro k hk
      rcases Nat.even_or_odd k with ⟨m, hm⟩ | ⟨m, hm⟩
      · have e : L + d * k = L + 2 * d * m := by subst hm; ring
        have hio : L + 2 * d * m < 32 := by rw [e] at hk; exact hk
        rw [e]
        exact le_trans (warp_step_fst_le s d L) ((h L hL).1 m hio)
      · have e : L + d * k = (L + d) + 2 * d * m := by subst hm; ring
        have hio : (L + d) + 2 * d * m < 32 := by rw [e] at hk; exact hk
        rw [e]
        exact le_trans (warp_step_fst_le_right s d L hLd) ((h (L + d) hLd).1 m hio)
    · rcases warp_step_eq_or s d L with heq | ⟨h32, heq⟩
      · obtain ⟨m, hm32, hms⟩ := (h L hL).2
        refine ⟨2 * m, ?_, ?_⟩
        · have e : L + d * (2 * m) = L + 2 * d * m := by ring
          rw [e]; exact hm32
        · have e : L + d * (2 * m) = L + 2 * d * m := by ring
          rw [e, heq]; exact hms
      · obtain ⟨m, hm32, hms⟩ := (h (L + d) h32).2
        refine ⟨2 * m + 1, ?_, ?_⟩
        · have e : L + d * (2 * m + 1) = (L + d) + 2 * d * m := by ring
          rw [e]; exact hm32
        · have e : L + d * (2 * m + 1) = (L + d) + 2 * d * m := by ring
          rw [e, heq]; exact hms
  · have hstep : warp_step s d L = s L := by
      unfold warp_step shfl_down
      rw [if_neg hLd, if_neg (lt_irrefl (s L).1)]
    constructor
    · intro k hk
      match k with
      | 0 =>
        rw [hstep]
        have h0 := (h L hL).1 0 (by simpa using hL)
        simpa using h0
      | k' + 1 =>
        exfalso
        have hdk : d ≤ d * (k' + 1) := Nat.le_mul_of_pos_right d (Nat.succ_pos k')
        omega
    · obtain ⟨m, hm32, hms⟩ := (h L hL).2
      have hm0 : m = 0 := by
        by_contra hne
        have hm1 : 0 < m := Nat.pos_of_ne_zero hne
        have h2d : 2 * d ≤ 2 * d * m := Nat.le_mul_of_pos_right (2 * d) hm1
        omega
      subst hm0
      refine ⟨0, by simpa using hL, ?_⟩
      rw [hstep]
      simpa using hms

theorem warp_reduce_spec (s0 : ℕ → ℚ × ℕ) :
    warpSpec 1 (warp_min_reduce_idx_unrolled s0) s0 := by
  have h16 := warpSpec_step 16 (by norm_num) s0 s0 (warpSpec_refl s0)
  have h8 := warpSpec_step 8 (by norm_num) _ s0 h16
  have h4 := warpSpec_step 4 (by norm_num) _ s0 h8
  have h2 := warpSpec_step 2 (by norm_num) _ s0 h4
  have h1 := warpSpec_step 1 (by norm_num) _ s0 h2
  exact h1

theorem warp_reduce_fst_le (s : ℕ → ℚ × ℕ) (M : ℕ) (hM : M < 32) :
    (warp_min_reduce_idx_unrolled s 0).1 ≤ (s M).1 := by
  have hs := warp_reduce_spec s 0 (by norm_num)
  have h := hs.1 M (by simpa using hM)
  simpa using h

theorem warp_reduce_mem (s : ℕ → ℚ × ℕ) :
    ∃ L, L < 32 ∧ warp_min_reduce_idx_unrolled s 0 = s L := by
  have hs := warp_reduce_spec s 0 (by norm_num)
  obtain ⟨k, hk32, hke⟩ := hs.2
  exact ⟨k, by simpa using hk32, by simpa using hke⟩

theorem warp_step_congr (d : ℕ) {s t : ℕ → ℚ × ℕ}
    (h : ∀ L, L < 32 → s L = t L) :
    ∀ L, L < 32 → warp_step s d L = warp_step t d L := by
  intro L hL
  unfold warp_step shfl_down
  by_cases h2 : L + d < 32
  · rw [if_pos h2, if_pos h2, h L hL, h _ h2]
  · rw [if_neg h2, if_neg h2, h L hL]

theorem warp_step_const (d : ℕ) (p : ℚ × ℕ) (L : ℕ) :
    warp_step (fun _ => p) d L = p := by
  unfold warp_step shfl_down
  by_cases h : L + d < 32 <;> simp [h]

theorem warp_reduce_of_eq_on (s : ℕ → ℚ × ℕ) (p : ℚ × ℕ)
    (h : ∀ L, L < 32 → s L = p) :
    warp_min_reduce_idx_unrolled s 0 = p := by
  have h16 := warp_step_congr 16 (t := fun _ => p) h
  have c16 : ∀ L, L < 32 → warp_step s 16 L = p := by
    intro L hL; rw [h16 L hL]; exact warp_step_const 16 p L
  have h8 := warp_step_congr 8 (t := fun _ => p) c16
  have c8 : ∀ L, L < 32 → warp_step (warp_step s 16) 8 L = p := by
    intro L hL; rw [h8 L hL]; exact warp_step_const 8 p L
  have h4 := warp_step_congr 4 (t := fun _ => p) c8
  have c4 : ∀ L, L < 32 → warp_step (warp_step (warp_step s 16) 8) 4 L = p := by
    intro L hL; rw [h4 L hL]; exact warp_step_const 4 p L
  have h2 := warp_step_congr 2 (t := fun _ => p) c4
  have c2 : ∀ L, L < 32 →
      warp_step (warp_step (warp_step (warp_step s 16) 8) 4) 2 L = p := by
    intro L hL; rw [h2 L hL]; exact warp_step_const 2 p L
  have h1 := warp_step_congr 1 (t := fun _ => p) c2
  have c1 : ∀ L, L < 32 → warp_min_reduce_idx_unrolled s L = p := by
    intro L hL
    unfold warp_min_reduce_idx_unrolled
    rw [h1 L hL]; exact warp_step_const 1 p L
  exact c1 0 (by norm_num)

/-! ## Lemmas about grid-stride loops -/

theorem lt_strideCount {start stride bound : ℕ} (hs : 0 < stride) (k : ℕ) :
    k < strideCount start stride bound ↔ start + stride * k < bound := by
  unfold strideCount
  rw [Nat.lt_iff_add_one_le, Nat.le_div_iff_mul_le hs, add_one_mul, mul_comm k stride]
  constructor
  · intro h
    generalize hax : stride * k = a at h ⊢
    omega
  · intro h
    generalize hax : stride * k = a at h ⊢
    omega

theorem mem_strideList {start stride bound j : ℕ} (hs : 0 < stride) :
    j ∈ strideList start stride bound ↔
      (∃ k, j = start + stride * k) ∧ j < bound := by
  unfold strideList
  rw [List.mem_range']
  constructor
  · rintro ⟨i, hi, rfl⟩
    exact ⟨⟨i, rfl⟩, (lt_strideCount hs i).1 hi⟩
  · rintro ⟨⟨k, rfl⟩, hj⟩
    exact ⟨k, (lt_strideCount hs k).2 hj, rfl⟩

theorem strideList_singleton {c : ℕ} (hc : c < 32) :
    strideList c 32 32 = [c] := by
  have hcount : strideCount c 32 32 = 1 := by
    unfold strideCount
    omega
  unfold strideList
  rw [hcount]
  rfl

theorem strideList_bound_zero (start stride : ℕ) (hs : 0 < stride) :
    strideList start stride 0 = [] := by
  have hcount : strideCount start stride 0 = 0 := by
    unfold strideCount
    have h1 : 0 - start + stride - 1 = stride - 1 := by omega
    rw [h1]
    exact Nat.div_eq_of_lt (by omega)
  unfold strideList
  rw [hcount]
  rfl

/-! ## Lemmas about the running-minimum scan -/

theorem minScan_fst_le_acc (f : ℕ → ℚ) (js : List ℕ) :
    ∀ acc : ℚ × ℕ, (minScan f acc js).1 ≤ acc.1 := by
  induction js with
  | nil => intro acc; exact le_refl _
  | cons a l ih =>
    intro acc
    show (minScan f (if f a < acc.1 then (f a, a) else acc) l).1 ≤ acc.1
    refine le_trans (ih _) ?_
    split
    · next h => exact le_of_lt h
    · exact le_refl _

theorem minScan_fst_le_mem (f : ℕ → ℚ) (js : List ℕ) :
    ∀ acc : ℚ × ℕ, ∀ j ∈ js, (minScan f acc js).1 ≤ f j := by
  induction js with
  | nil => intro acc j hj; exact absurd hj (List.not_mem_nil j)
  | cons a l ih =>
    intro acc j hj
    rcases List.mem_cons.1 hj with rfl | hjl
    · show (minScan f (if f j < acc.1 then (f j, j) else acc) l).1 ≤ f j
      refine le_trans (minScan_fst_le_acc f l _) ?_
      split
      · exact le_refl _
      · next h => exact not_lt.1 h
    · exact ih _ j hjl

theorem minScan_eq_acc_or_mem (f : ℕ → ℚ) (js : List ℕ) :
    ∀ acc : ℚ × ℕ, minScan f acc js = acc ∨
      ∃ j ∈ js, minScan f acc js = (f j, j) := by
  induction js with
  | nil => intro acc; exact Or.inl rfl
  | cons a l ih =>
    intro acc
    have hstep : minScan f acc (a :: l)
        = minScan f (if f a < acc.1 then (f a, a) else acc) l := rfl
    rcases ih (if f a < acc.1 then (f a, a) else acc) with h | ⟨j, hjl, hje⟩
    · rw [hstep, h]
      split
      · exact Or.inr ⟨a, List.mem_cons_self a l, rfl⟩
      · exact Or.inl rfl
    · exact Or.inr ⟨j, List.mem_cons_of_mem a hjl, by rw [hstep, hje]⟩

/-! ## Claim C3: the warp reduction -/

/-- Claim C3 (amended): for every assignment of a (value, index) pair to the
32 warp lanes, the five-step shuffle reduction with offsets 16, 8, 4, 2, 1
(keep own pair when its value is less than or equal to the received value)
produces on lane 0 the pair of some lane whose value is minimal over all 32
lanes.  The tie-break among equal minimal values is decided by the fixed
merge tree, not by lowest originating lane (see the counterexample). -/
theorem warp_min_reduce_min_correct (s : ℕ → ℚ × ℕ) :
    ∃ L, L < 32 ∧ warp_min_reduce_idx_unrolled s 0 = s L ∧
      ∀ M, M < 32 → (s L).1 ≤ (s M).1 := by
  obtain ⟨L, hL, hLe⟩ := warp_reduce_mem s
  refine ⟨L, hL, hLe, ?_⟩
  intro M hM
  rw [← hLe]
  exact warp_reduce_fst_le s M hM

/-- Counterexample to claim C3 as stated: with the minimal value 0 held
exactly by lanes 4 and 8 (each lane carrying its own number as index), the
reduction delivers the pair of lane 8, not of the lowest minimal lane 4. -/
theorem warp_min_reduce_lowest_lane_tiebreak_cex :
    (warpCexInput 4).1 = (warpCexInput 8).1 ∧
    (∀ M, M < 32 → (warpCexInput 4).1 ≤ (warpCexInput M).1) ∧
    (∀ M, M < 4 → (warpCexInput 4).1 < (warpCexInput M).1) ∧
    warpCexInput 4 = (0, 4) ∧
    warp_min_reduce_idx_unrolled warpCexInput 0 = (0, 8) ∧
    ((0 : ℚ), (8 : ℕ)) ≠ ((0 : ℚ), (4 : ℕ)) := by
  refine ⟨by norm_num [warpCexInput], ?_, ?_, by norm_num [warpCexInput], by decide, by decide⟩
  · intro M hM
    by_cases h : M = 4 ∨ M = 8 <;> simp [warpCexInput, h]
  · intro M hM
    have h4 : ¬ (M = 4 ∨ M = 8) := by omega
    simp [warpCexInput, h4]

/-! ## Lemmas about the nearest-neighbor engine under the hard-coded launch -/

theorem SENT1_lt_SENT2 : SENT1 < SENT2 := by norm_num [SENT1, SENT2]

/-- The Phase 2 lane pair is the BlockPartial cell pair of the lane's own
column whenever that cell's distance is below the Phase 2 seed. -/
theorem lanePair2_eq_cell (cellD : ℕ → ℚ) (cellI : ℕ → ℕ) (tx : ℕ)
    (htx : tx < 32) (hlt : cellD tx < SENT2) :
    lanePair2 cellD cellI tx = (cellD tx, cellI tx) := by
  unfold lanePair2
  rw [strideList_singleton htx]
  show (if cellD tx < SENT2 then (cellD tx, cellI tx) else (SENT2, 0)) = _
  rw [if_pos hlt]

/-- Every Phase 1 lane scan starts at the seed, so its value never exceeds
the sentinel. -/
theorem lanePair1_fst_le_SENT1 (nRef g1x : ℕ) (f : ℕ → ℚ) (c tx : ℕ) :
    (lanePair1 nRef g1x f c tx).1 ≤ SENT1 :=
  minScan_fst_le_acc f _ _

/-- A written BlockPartial cell never exceeds the Phase 1 sentinel. -/
theorem blockCell_fst_le_SENT1 (nObs nRef g1x : ℕ) (hav : ℕ → ℕ → ℚ)
    (initD : ℕ → ℕ → ℚ) (initI : ℕ → ℕ → ℕ) (i c : ℕ)
    (hc : c < g1x) (hi : i < nObs) :
    (blockCell nObs nRef g1x hav initD initI i c).1 ≤ SENT1 := by
  unfold blockCell
  rw [if_pos ⟨hc, hi⟩]
  obtain ⟨L, hL, hLe⟩ := warp_reduce_mem (fun tx => lanePair1 nRef g1x (hav i) c tx)
  rw [hLe]
  exact lanePair1_fst_le_SENT1 nRef g1x (hav i) c L

/-- Upper bound: under the hard-coded launch the engine output for
observation `i` is at most the distance to any reference `j`. -/
theorem engineOut_fst_le (nObs nRef : ℕ) (hav : ℕ → ℕ → ℚ)
    (initD : ℕ → ℕ → ℚ) (initI : ℕ → ℕ → ℕ) (i j : ℕ)
    (hi : i < nObs) (hj : j < nRef) :
    (engineOut nObs nRef 32 hav initD initI i).1 ≤ hav i j := by
  set c : ℕ := j % 1024 / 32 with hcdef
  set tx : ℕ := j % 32 with htxdef
  have hc : c < 32 := by omega
  have htx : tx < 32 := by omega
  have hmem : j ∈ strideList (c * 32 + tx) (32 * 32) nRef := by
    rw [mem_strideList (by norm_num)]
    refine ⟨⟨j / 1024, ?_⟩, hj⟩
    omega
  have h1 : (lanePair1 nRef 32 (hav i) c tx).1 ≤ hav i j :=
    minScan_fst_le_mem (hav i) _ _ j hmem
  have h2 : (blockCell nObs nRef 32 hav initD initI i c).1
      ≤ (lanePair1 nRef 32 (hav i) c tx).1 := by
    unfold blockCell
    rw [if_pos ⟨hc, hi⟩]
    exact warp_reduce_fst_le _ tx htx
  have h3 : (blockCell nObs nRef 32 hav initD initI i c).1 < SENT2 :=
    lt_of_le_of_lt (blockCell_fst_le_SENT1 nObs nRef 32 hav initD initI i c hc hi)
      SENT1_lt_SENT2
  have h4 : lanePair2
      (fun t => (blockCell nObs nRef 32 hav initD initI i t).1)
      (fun t => (blockCell nObs nRef 32 hav initD initI i t).2) c
      = ((blockCell nObs nRef 32 hav initD initI i c).1,
         (blockCell nObs nRef 32 hav initD initI i c).2) :=
    lanePair2_eq_cell _ _ c hc h3
  have h5 := warp_reduce_fst_le
    (fun tx => lanePair2
      (fun t => (blockCell nObs nRef 32 hav initD initI i t).1)
      (fun t => (blockCell nObs nRef 32 hav initD initI i t).2) tx) c hc
  unfold engineOut
  refine le_trans h5 ?_
  simp only
  rw [h4]
  exact le_trans h2 h1

/-- Structure: under the hard-coded launch, if the reference set is
non-empty and every distance is below the Phase 1 sentinel, the engine
output is the distance-index pair of an actual reference point. -/
theorem engineOut_mem (nObs nRef : ℕ) (hav : ℕ → ℕ → ℚ)
    (initD : ℕ → ℕ → ℚ) (initI : ℕ → ℕ → ℕ) (i : ℕ)
    (hi : i < nObs) (href : 0 < nRef)
    (hb : ∀ j, j < nRef → hav i j < SENT1) :
    ∃ j, j < nRef ∧ engineOut nObs nRef 32 hav initD initI i = (hav i j, j) := by
  have hub : (engineOut nObs nRef 32 hav initD initI i).1 < SENT1 :=
    lt_of_le_of_lt (engineOut_fst_le nObs nRef hav initD initI i 0 hi href)
      (hb 0 href)
  obtain ⟨t, ht, hte⟩ := warp_reduce_mem
    (fun tx => lanePair2
      (fun u => (blockCell nObs nRef 32 hav initD initI i u).1)
      (fun u => (blockCell nObs nRef 32 hav initD initI i u).2) tx)
  have h3 : (blockCell nObs nRef 32 hav initD initI i t).1 < SENT2 :=
    lt_of_le_of_lt (blockCell_fst_le_SENT1 nObs nRef 32 hav initD initI i t ht hi)
      SENT1_lt_SENT2
  have h4 := lanePair2_eq_cell
    (fun u => (blockCell nObs nRef 32 hav initD initI i u).1)
    (fun u => (blockCell nObs nRef 32 hav initD initI i u).2) t ht h3
  have hcell : engineOut nObs nRef 32 hav initD initI i
      = blockCell nObs nRef 32 hav initD initI i t := by
    unfold engineOut
    rw [hte, h4]
  have hcellw : blockCell nObs nRef 32 hav initD initI i t
      = warp_min_reduce_idx_unrolled (fun tx => lanePair1 nRef 32 (hav i) t tx) 0 := by
    unfold blockCell
    rw [if_pos ⟨ht, hi⟩]
  obtain ⟨L, hL, hLe⟩ := warp_reduce_mem (fun tx => lanePair1 nRef 32 (hav i) t tx)
  have hlane : engineOut nObs nRef 32 hav initD initI i
      = lanePair1 nRef 32 (hav i) t L := by
    rw [hcell, hcellw, hLe]
  rcases minScan_eq_acc_or_mem (hav i) (strideList (t * 32 + L) (32 * 32) nRef)
      (SENT1, 0) with hseed | ⟨j, hjmem, hje⟩
  · exfalso
    have : engineOut nObs nRef 32 hav initD initI i = (SENT1, 0) := by
      rw [hlane]; exact hseed
    rw [this] at hub
    exact absurd hub (lt_irrefl SENT1)
  · have hjlt : j < nRef := ((mem_strideList (by norm_num)).1 hjmem).2
    refine ⟨j, hjlt, ?_⟩
    rw [hlane]
    exact hje

/-- Structure of the CPU oracle result: with a non-empty reference set and
distances below the seed sentinel, `numba_cpu_solve` returns the pair of an
actual reference point, and its distance bounds every reference. -/
theorem numba_cpu_solve_opt (nObs nRef : ℕ) (hav : ℕ → ℕ → ℚ) (i : ℕ)
    (href : 0 < nRef) (hb : ∀ j, j < nRef → hav i j < SENT1) :
    (∀ j, j < nRef → (numba_cpu_solve_model nObs nRef hav i).1 ≤ hav i j) ∧
    ∃ j, j < nRef ∧ numba_cpu_solve_model nObs nRef hav i = (hav i j, j) := by
  constructor
  · intro j hj
    exact minScan_fst_le_mem (hav i) _ _ j (List.mem_range.2 hj)
  · rcases minScan_eq_acc_or_mem (hav i) (List.range nRef) (SENT1, 0) with
      hseed | ⟨j, hjmem, hje⟩
    · exfalso
      have h0 : (numba_cpu_solve_model nObs nRef hav i).1 ≤ hav i 0 :=
        minScan_fst_le_mem (hav i) _ _ 0 (List.mem_range.2 href)
      have : (SENT1 : ℚ) < SENT1 := by
        calc SENT1 = (numba_cpu_solve_model nObs nRef hav i).1 := by
              unfold numba_cpu_solve_model; rw [hseed]
          _ ≤ hav i 0 := h0
          _ < SENT1 := hb 0 href
      exact absurd this (lt_irrefl SENT1)
    · exact ⟨j, List.mem_range.1 hjmem, hje⟩

/-- Claim C1: for a non-empty reference set of finite points (distances
bounded by the seed sentinel, as the real haversine always is), the engine
under its hard-coded launch returns, per observation, exactly the minimal
distance found by the direct brute-force recomputation `numba_cpu_solve`
(equality in the idealized arithmetic, hence within any tolerance), a valid
reference index, and a distance equal to the distance between the
observation and the reference at the returned index. -/
theorem numba_cuda_solve_matches_bruteforce
    (nObs nRef : ℕ) (hav : ℕ → ℕ → ℚ)
    (initD : ℕ → ℕ → ℚ) (initI : ℕ → ℕ → ℕ)
    (href : 0 < nRef) (hb : ∀ i j, i < nObs → j < nRef → hav i j < SENT1)
    (i : ℕ) (hi : i < nObs) :
    (numba_cuda_solve_model nObs nRef hav initD initI).2 i
        = (numba_cpu_solve_model nObs nRef hav i).1 ∧
    (numba_cuda_solve_model nObs nRef hav initD initI).1 i < nRef ∧
    (numba_cuda_solve_model nObs nRef hav initD initI).2 i
        = hav i ((numba_cuda_solve_model nObs nRef hav initD initI).1 i) := by
  have hbi : ∀ j, j < nRef → hav i j < SENT1 := fun j hj => hb i j hi hj
  obtain ⟨jg, hjg, hge⟩ := engineOut_mem nObs nRef hav initD initI i hi href hbi
  obtain ⟨hcle, jp, hjp, hpe⟩ := numba_cpu_solve_opt nObs nRef hav i href hbi
  have hgd : (numba_cuda_solve_model nObs nRef hav initD initI).2 i = hav i jg := by
    show (engineOut nObs nRef 32 hav initD initI i).1 = hav i jg
    rw [hge]
  have hgi : (numba_cuda_solve_model nObs nRef hav initD initI).1 i = jg := by
    show (engineOut nObs nRef 32 hav initD initI i).2 = jg
    rw [hge]
  have hpd : (numba_cpu_solve_model nObs nRef hav i).1 = hav i jp := by
    rw [hpe]
  have hle1 : hav i jg ≤ hav i jp := by
    have := engineOut_fst_le nObs nRef hav initD initI i jp hi hjp
    rw [hge] at this
    exact this
  have hle2 : hav i jp ≤ hav i jg := by
    have := hcle jg hjg
    rw [hpd] at this
    exact this
  refine ⟨?_, ?_, ?_⟩
  · rw [hgd, hpd]
    exact le_antisymm hle1 hle2
  · rw [hgi]; exact hjg
  · rw [hgd, hgi]

/-- Witness for claim C1 at a concrete input: one observation, two
reference points with distances 3 and 5. -/
theorem numba_cuda_solve_matches_bruteforce_witness :
    (numba_cuda_solve_model 1 2 (fun _ j => 3 + 2 * j) cexInitD cexInitI).2 0
        = (numba_cpu_solve_model 1 2 (fun _ j => 3 + 2 * j) 0).1 ∧
    (numba_cuda_solve_model 1 2 (fun _ j => 3 + 2 * j) cexInitD cexInitI).1 0 < 2 ∧
    (numba_cuda_solve_model 1 2 (fun _ j => 3 + 2 * j) cexInitD cexInitI).2 0
        = (fun (_ j : ℕ) => (3 + 2 * j : ℚ)) 0
            ((numba_cuda_solve_model 1 2 (fun _ j => 3 + 2 * j) cexInitD cexInitI).1 0) :=
  numba_cuda_solve_matches_bruteforce 1 2 (fun _ j => 3 + 2 * j) cexInitD cexInitI
    (by norm_num)
    (by
      intro i j _ hj
      interval_cases j <;> norm_num [SENT1])
    0 (by norm_num)

/-! ## Claim C7: empty reference set -/

/-- Claim C7: with an empty reference set the engine does not fail: every
observation receives the Phase 1 seed sentinel `1e11` as distance and 0 as
index. -/
theorem engine_empty_refset (nObs : ℕ) (hav : ℕ → ℕ → ℚ)
    (initD : ℕ → ℕ → ℚ) (initI : ℕ → ℕ → ℕ) (i : ℕ) (hi : i < nObs) :
    engineOut nObs 0 32 hav initD initI i = (SENT1, 0) := by
  have hlane1 : ∀ c tx : ℕ, lanePair1 0 32 (hav i) c tx = (SENT1, 0) := by
    intro c tx
    unfold lanePair1
    rw [strideList_bound_zero _ _ (by norm_num)]
    rfl
  have hcell : ∀ c, c < 32 →
      blockCell nObs 0 32 hav initD initI i c = (SENT1, 0) := by
    intro c hc
    unfold blockCell
    rw [if_pos ⟨hc, hi⟩]
    exact warp_reduce_of_eq_on _ _ (fun L _ => hlane1 c L)
  have hlane2 : ∀ tx, tx < 32 →
      lanePair2
        (fun t => (blockCell nObs 0 32 hav initD initI i t).1)
        (fun t => (blockCell nObs 0 32 hav initD initI i t).2) tx
      = (SENT1, 0) := by
    intro tx htx
    have h1 : (blockCell nObs 0 32 hav initD initI i tx).1 = SENT1 := by
      rw [hcell tx htx]
    have h2 : (blockCell nObs 0 32 hav initD initI i tx).2 = 0 := by
      rw [hcell tx htx]
    rw [lanePair2_eq_cell _ _ tx htx (by rw [h1]; exact SENT1_lt_SENT2), h1, h2]
  unfold engineOut
  exact warp_reduce_of_eq_on _ _ hlane2

/-- Witness for claim C7 at a concrete input: one observation, zero
reference points. -/
theorem engine_empty_refset_witness :
    engineOut 1 0 32 cexHav cexInitD cexInitI 0 = (SENT1, 0) :=
  engine_empty_refset 1 cexHav cexInitD cexInitI 0 (by norm_num)

/-! ## Claim C2: launch-configuration dependence -/

set_option maxRecDepth 100000

/-- Claim C2 is false on the code: with one observation and one reference
point at distance 1, the hard-coded Phase 1 grid (x dimension 32) yields
the pair of distance 1 and index 0, but a Phase 1 grid with x dimension 16 —
whose grid-stride coverage of the problem is still complete — leaves the
BlockPartial columns 16 to 31 unwritten, Phase 2 reads them, and the result
is the uninitialized memory pair.  The launch configuration therefore
changes the returned index and distance. -/
theorem engine_launch_config_dependence :
    p1Covers 32 0 ∧ p1Covers 16 0 ∧
    engineOut 1 1 32 cexHav cexInitD cexInitI 0 = (1, 0) ∧
    engineOut 1 1 16 cexHav cexInitD cexInitI 0 = (-1, 7) ∧
    engineOut 1 1 16 cexHav cexInitD cexInitI 0
      ≠ engineOut 1 1 32 cexHav cexInitD cexInitI 0 := by
  refine ⟨⟨0, 0, 0, by norm_num⟩, ⟨0, 0, 0, by norm_num⟩, by decide, by decide, by decide⟩

/-! ## Claim C9: Phase 1 frame effect -/

/-- Claim C9: the Phase 1 kernel writes only the BlockPartial arrays: the
reference and observation buffers are unchanged by the kernel run, and the
only arrays ever assigned in the kernel body are `block_dist` and
`block_idx`. -/
theorem block_min_reduce_frame (nObs nRef g1x : ℕ)
    (hvr : ℚ × ℚ → ℚ × ℚ → ℚ) (s : NNBuffers) :
    (block_min_reduce_run nObs nRef g1x hvr s).ref = s.ref ∧
    (block_min_reduce_run nObs nRef g1x hvr s).obs = s.obs ∧
    NNArray.refArr ∉ block_min_reduce_storeTargets ∧
    NNArray.obsArr ∉ block_min_reduce_storeTargets :=
  ⟨rfl, rfl, by decide, by decide⟩

/-! ## Claim C10: write/read discipline of the hard-coded launch -/

/-- Claim C10: under the hard-coded launch configuration, every Phase 1
write lands in a BlockPartial column below 32 (the column is `blockIdx.x`
and `gridDim.x = 32`); each BlockPartial cell of an existing observation is
written by exactly one thread, which is lane 0 of its warp; and in Phase 2
the 32 lanes of a warp together read each of the 32 BlockPartial columns of
their row exactly once before the warp reduction. -/
theorem hardcoded_launch_write_read_discipline (nObs i c : ℕ)
    (hi : i < nObs) (hc : c < 32) :
    (∀ i2 c2 bx byy tx ty, p1ValidThread bx byy tx ty →
        p1WritesCell nObs i2 c2 bx byy tx ty → c2 < 32) ∧
    (∃! t : ℕ × ℕ × ℕ × ℕ,
        p1ValidThread t.1 t.2.1 t.2.2.1 t.2.2.2 ∧
        p1WritesCell nObs i c t.1 t.2.1 t.2.2.1 t.2.2.2) ∧
    (∑ tx ∈ Finset.range 32, (p2ColsReadByLane tx).count c) = 1 := by
  refine ⟨?_, ?_, ?_⟩
  · intro i2 c2 bx byy tx ty hval hw
    rw [hw.2.1]
    exact hval.1
  · refine ⟨(c, i % 2048 / 16, 0, i % 2048 % 16), ⟨?_, ?_⟩, ?_⟩
    · show p1ValidThread c (i % 2048 / 16) 0 (i % 2048 % 16)
      exact ⟨hc, by omega, by omega, by omega⟩
    · show p1WritesCell nObs i c c (i % 2048 / 16) 0 (i % 2048 % 16)
      refine ⟨?_, rfl, ?_⟩
      · show (0 + (i % 2048 % 16) * 32) % 32 = 0
        omega
      · rw [mem_strideList (by norm_num)]
        exact ⟨⟨i / 2048, by omega⟩, hi⟩
    · rintro ⟨bx, byy, tx, ty⟩ ⟨hval, hw⟩
      have hval2 : p1ValidThread bx byy tx ty := hval
      have hw2 : p1WritesCell nObs i c bx byy tx ty := hw
      obtain ⟨hbx, hby, htx, hty⟩ := hval2
      obtain ⟨hlane, hcol, hmem⟩ := hw2
      have htx0 : tx = 0 := by
        have hl : (tx + ty * 32) % 32 = 0 := hlane
        omega
      obtain ⟨⟨k, hk⟩, _hlt⟩ := (mem_strideList (by norm_num)).1 hmem
      have hby2 : byy = i % 2048 / 16 := by omega
      have hty2 : ty = i % 2048 % 16 := by omega
      simp only [Prod.mk.injEq]
      exact ⟨hcol.symm, hby2, htx0, hty2⟩
  · have hread : ∀ tx, tx < 32 → (p2ColsReadByLane tx).count c
        = if tx = c then 1 else 0 := by
      intro tx htx
      unfold p2ColsReadByLane
      rw [strideList_singleton htx]
      show List.count c [tx] = _
      simp [List.count_cons, List.count_nil, beq_iff_eq]
    calc (∑ tx ∈ Finset.range 32, (p2ColsReadByLane tx).count c)
        = ∑ tx ∈ Finset.range 32, if tx = c then 1 else 0 :=
          Finset.sum_congr rfl
            (fun tx hx => hread tx (Finset.mem_range.1 hx))
      _ = 1 := by
          rw [Finset.sum_ite_eq' (Finset.range 32) c (fun _ => 1)]
          rw [if_pos (Finset.mem_range.2 hc)]

/-- Witness for claim C10 at a concrete cell: observation 5 of 6, column
17. -/
theorem hardcoded_launch_write_read_discipline_witness :
    (∀ i2 c2 bx byy tx ty, p1ValidThread bx byy tx ty →
        p1WritesCell 6 i2 c2 bx byy tx ty → c2 < 32) ∧
    (∃! t : ℕ × ℕ × ℕ × ℕ,
        p1ValidThread t.1 t.2.1 t.2.2.1 t.2.2.2 ∧
        p1WritesCell 6 5 17 t.1 t.2.1 t.2.2.1 t.2.2.2) ∧
    (∑ tx ∈ Finset.range 32, (p2ColsReadByLane tx).count 17) = 1 :=
  hardcoded_launch_write_read_discipline 6 5 17 (by norm_num) (by norm_num)

/-! ## Claim C4: host-side synchronization structure -/

/-- Counterexample to claim C4 as stated: in the host trace of
`numba_cuda_solve` there is no device synchronization between the Phase 1
launch and the Phase 2 launch. -/
theorem numba_cuda_solve_no_sync_between_phases :
    ¬ ∃ a, a < numba_cuda_solve_hostTrace.length ∧
      ∃ b, b < numba_cuda_solve_hostTrace.length ∧
      ∃ k, k < numba_cuda_solve_hostTrace.length ∧
      a < b ∧ b < k ∧
      numba_cuda_solve_hostTrace.getD a HostOp.deviceSynchronize
        = HostOp.kernelLaunch "block_min_reduce" ∧
      numba_cuda_solve_hostTrace.getD b HostOp.deviceArrayAlloc
        = HostOp.deviceSynchronize ∧
      numba_cuda_solve_hostTrace.getD k HostOp.deviceSynchronize
        = HostOp.kernelLaunch "global_min_reduce" := by
  decide

/-- Claim C4 (amended): `numba_cuda_solve` launches the Phase 2 kernel
immediately after the Phase 1 kernel with no intervening device-wide
synchronization (ordering between the kernels comes from being issued to
the same stream), and it issues exactly one blocking device-wide
synchronization, after Phase 2 and before returning the result arrays. -/
theorem numba_cuda_solve_phase_order :
    numba_cuda_solve_hostTrace.getD 4 HostOp.deviceSynchronize
      = HostOp.kernelLaunch "block_min_reduce" ∧
    numba_cuda_solve_hostTrace.getD 5 HostOp.deviceSynchronize
      = HostOp.kernelLaunch "global_min_reduce" ∧
    numba_cuda_solve_hostTrace.getD 6 HostOp.deviceArrayAlloc
      = HostOp.deviceSynchronize ∧
    numba_cuda_solve_hostTrace.length = 7 ∧
    (∀ m, m < 7 →
      (numba_cuda_solve_hostTrace.getD m HostOp.deviceArrayAlloc
        = HostOp.deviceSynchronize → m = 6)) := by
  decide

/-! ## Lemmas about the matrix-multiply kernels -/

theorem foldl_congr_mem {F G : ℚ → ℕ → ℚ} :
    ∀ (l : List ℕ) (a : ℚ), (∀ x ∈ l, ∀ t, F t x = G t x) →
      l.foldl F a = l.foldl G a := by
  intro l
  induction l with
  | nil => intro a _; rfl
  | cons x xs ih =>
    intro a h
    rw [List.foldl_cons, List.foldl_cons, h x (List.mem_cons_self x xs)]
    exact ih _ (fun y hy => h y (List.mem_cons_of_mem x hy))

theorem range_add_append (a b : ℕ) :
    List.range (a + b) = List.range a ++ (List.range b).map (a + ·) := by
  induction b with
  | zero => simp
  | succ b ih =>
    rw [← Nat.add_assoc, List.range_succ, ih, List.range_succ, List.map_append,
      List.append_assoc]
    rfl

/-- Splitting a left fold of additions over `range (m * n)` into a fold of
inner folds over tiles of width `n`, preserving the accumulation order. -/
theorem foldl_add_range_mul (g : ℕ → ℚ) (m n : ℕ) :
    ∀ a : ℚ, (List.range (m * n)).foldl (fun t k => t + g k) a
      = (List.range m).foldl
          (fun t i => (List.range n).foldl (fun t2 j => t2 + g (i * n + j)) t) a := by
  induction m with
  | zero => intro a; rw [Nat.zero_mul]; rfl
  | succ m ih =>
    intro a
    have h1 : (m + 1) * n = m * n + n := by ring
    rw [h1, range_add_append, List.foldl_append, List.foldl_map,
      List.range_succ, List.foldl_append, ih a]
    rfl

theorem ceilDiv16_mul_of_dvd {n : ℕ} (h : TPB ∣ n) : ceilDiv16 n * TPB = n := by
  obtain ⟨m, rfl⟩ := h
  unfold ceilDiv16 TPB
  omega

/-- In-bounds shared-memory load of the `sA` tile: for a thread whose row
coordinate is in bounds, the tile entry it will read equals the matching
global entry of A. -/
theorem sAload_in_bounds (A B : NpMatrix) (sAinit : ℕ → ℕ → ℚ)
    (r c i j : ℕ) (hr : r < A.rows) :
    sAload A B sAinit (r / TPB) (c / TPB) i (r % TPB) j
      = A.entry r (i * TPB + j) := by
  have hx : r / TPB * TPB + r % TPB = r := by simp only [TPB]; omega
  have hguard : ¬ fast_matmul_returns_early A.rows B.cols
      (r / TPB * TPB + r % TPB) (c / TPB * TPB + j) := by
    intro hcontra
    rw [hx] at hcontra
    exact absurd hcontra.1 (not_le.2 hr)
  unfold sAload
  rw [if_neg hguard, hx]
  have hidx : j + i * TPB = i * TPB + j := by ring
  rw [hidx]

/-- In-bounds shared-memory load of the `sB` tile. -/
theorem sBload_in_bounds (A B : NpMatrix) (sBinit : ℕ → ℕ → ℚ)
    (r c i j : ℕ) (hc : c < B.cols) :
    sBload A B sBinit (r / TPB) (c / TPB) i j (c % TPB)
      = B.entry (i * TPB + j) c := by
  have hy : c / TPB * TPB + c % TPB = c := by simp only [TPB]; omega
  have hguard : ¬ fast_matmul_returns_early A.rows B.cols
      (r / TPB * TPB + j) (c / TPB * TPB + c % TPB) := by
    intro hcontra
    rw [hy] at hcontra
    exact absurd hcontra.2 (not_le.2 hc)
  unfold sBload
  rw [if_neg hguard, hy]
  have hidx : j + i * TPB = i * TPB + j := by ring
  rw [hidx]

/-! ## Claim C6: tiled matmul equals naive matmul on tile-multiple shapes -/

/-- Claim C6: for matrices whose dimensions are multiples of the tile width,
`fast_matmul` produces entry for entry the same output as the naive `matmul`
kernel (the partial dot products accumulate over k in the same order, so in
the idealized arithmetic the results are equal, hence within any floating
point tolerance), and the output dimensions are those of the product; in
particular for the degenerate all-zero dimensions the output is the empty
matrix and no error occurs. -/
theorem fast_matmul_matches_naive (A B : NpMatrix) (sAinit sBinit : ℕ → ℕ → ℚ)
    (hAB : A.cols = B.rows) (hM : TPB ∣ A.rows) (hK : TPB ∣ A.cols)
    (hN : TPB ∣ B.cols) :
    (∀ r c, r < A.rows → c < B.cols →
        (fast_matmul_run A B sAinit sBinit).entry r c = (matmul_run A B).entry r c) ∧
    (fast_matmul_run A B sAinit sBinit).rows = A.rows ∧
    (fast_matmul_run A B sAinit sBinit).cols = B.cols := by
  have hgr : ceilDiv16 A.rows * TPB = A.rows := ceilDiv16_mul_of_dvd hM
  have hgc : ceilDiv16 B.cols * TPB = B.cols := ceilDiv16_mul_of_dvd hN
  refine ⟨?_, rfl, rfl⟩
  intro r c hr hc
  have hfast : (fast_matmul_run A B sAinit sBinit).entry r c
      = fast_matmul_tmp A B sAinit sBinit (r / TPB) (c / TPB) (r % TPB) (c % TPB) := by
    show (if _ then _ else _) = _
    rw [if_pos]
    exact ⟨by rw [hgr]; exact hr, by rw [hgc]; exact hc,
      fun h2 => absurd h2.1 (not_le.2 hr)⟩
  have hnaive : (matmul_run A B).entry r c = matmul_tmp A B r c := by
    show (if _ then _ else _) = _
    rw [if_pos]
    exact ⟨by rw [hgr]; exact hr, by rw [hgc]; exact hc, hr, hc⟩
  rw [hfast, hnaive]
  have hKK : A.cols / TPB * TPB = A.cols := Nat.div_mul_cancel hK
  have hflat := foldl_add_range_mul (fun k => A.entry r k * B.entry k c)
    (A.cols / TPB) TPB 0
  rw [hKK] at hflat
  unfold fast_matmul_tmp matmul_tmp
  rw [hflat]
  refine foldl_congr_mem (List.range (A.cols / TPB)) 0 ?_
  intro i _ t
  refine foldl_congr_mem (List.range TPB) t ?_
  intro j _ t2
  rw [sAload_in_bounds A B sAinit r c i j hr, sBload_in_bounds A B sBinit r c i j hc]

/-- Witness for claim C6 at a concrete input: the 16 by 16 all-ones
matrices. -/
theorem fast_matmul_matches_naive_witness :
    (∀ r c, r < matC6.rows → c < matC6.cols →
        (fast_matmul_run matC6 matC6 (fun _ _ => 0) (fun _ _ => 0)).entry r c
          = (matmul_run matC6 matC6).entry r c) ∧
    (fast_matmul_run matC6 matC6 (fun _ _ => 0) (fun _ _ => 0)).rows = matC6.rows ∧
    (fast_matmul_run matC6 matC6 (fun _ _ => 0) (fun _ _ => 0)).cols = matC6.cols :=
  fast_matmul_matches_naive matC6 matC6 (fun _ _ => 0) (fun _ _ => 0)
    rfl (by decide) (by decide) (by decide)

/-! ## Claim C5: barrier participation in fast_matmul -/

/-- Claim C5 is false on the code: with A of shape 17 by 16 and B of shape
16 by 17 (so C is 17 by 17 on a 2 by 2 grid of 16 by 16 blocks), the thread
with threadIdx the pair 1 1 of block the pair 1 1 has both coordinates out
of bounds (x and y both 17) and returns before the first barrier, while the
thread with threadIdx the pair 0 0 of the same block is in bounds (x and y
both 16) and reaches the barriers of the tile loop, which runs once. -/
theorem fast_matmul_barrier_divergence :
    1 < ceilDiv16 matC5A.rows ∧ 1 < ceilDiv16 matC5B.cols ∧
    0 < matC5A.cols / TPB ∧
    fast_matmul_reaches_barrier matC5A matC5B (1 * TPB + 0) (1 * TPB + 0) ∧
    fast_matmul_returns_early matC5A.rows matC5B.cols (1 * TPB + 1) (1 * TPB + 1) := by
  decide

/-! ## Claim C8: the matmul entry point performs no dimension check -/

/-- Counterexample to claim C8 as stated: for A of shape 1 by 2 and B of
shape 3 by 1 the inner dimensions disagree, yet `multiply` reports no
configuration error. -/
theorem multiply_no_dim_check_cex :
    matC8A.cols ≠ matC8B.rows ∧
    isConfigError (multiply matC8A matC8B) = false := by
  exact ⟨by decide, rfl⟩

/-- Claim C8 (amended): the matmul launch path performs no dimension check
at all: for every pair of input matrices, including mismatched ones, no
configuration error is reported and the kernel is launched unconditionally
on the configured grid. -/
theorem multiply_never_reports_config_error :
    ∀ A B : NpMatrix, isConfigError (multiply A B) = false ∧
      multiply A B = Except.ok (matmul_run A B) :=
  fun _A _B => ⟨rfl, rfl⟩

/-! ## The haversine bound

Justifies the boundedness hypothesis of claim C1: the exact haversine
distance is at most pi, far below the seed sentinel `1e11`. -/

theorem haversine_lt_sentinel (lat1 lon1 lat2 lon2 : ℝ) :
    haversine lat1 lon1 lat2 lon2 < 100000000000 := by
  unfold haversine
  have h1 := Real.arcsin_le_pi_div_two
    (Real.sqrt
      (Real.sin ((lat2 - lat1) / 2) ^ 2 +
        Real.cos lat1 * Real.cos lat2 * Real.sin ((lon2 - lon1) / 2) ^ 2))
  have h2 := Real.pi_lt_d2
  linarith
